import Mathlib

/-!
Shallow embedding of folly's IOBufQueue (src/folly/io/IOBufQueue.cpp).

Buffer nodes are modelled as records of headroom, data bytes, tailroom and a
shared flag; a chain is a head-first list of nodes (the C++ circular chain's
tail is the last list element).  The queue carries the chain, the cached
chain length, and the bytes written into the write-range cache but not yet
committed (the lease).
-/

/-- Buffer node of the external collaborator.  Modelled from the spec:
the Buffer type (folly::IOBuf) is out of scope of src and specified by the
collaborator contract of the spec — a memory span with headroom, a data
region (`data`, the committed bytes), tailroom, and a flag telling whether
the storage is shared with other holders. -/
structure IOBufNode where
  headroom : Nat
  data : List Nat
  tailroom : Nat
  shared : Bool
deriving DecidableEq, Repr

/-- Source `IOBuf::length()`: size of the data region. -/
def IOBufNode.length (b : IOBufNode) : Nat := b.data.length

/-- Source `IOBuf::capacity()`: headroom + length + tailroom. -/
def IOBufNode.capacity (b : IOBufNode) : Nat := b.headroom + b.data.length + b.tailroom

/-- Source `memcpy(writableTail(), ...); append(n)`: write bytes into the tailroom and
extend the data region over them. -/
def IOBufNode.appendBytes (b : IOBufNode) (bs : List Nat) : IOBufNode :=
  { b with data := b.data ++ bs, tailroom := b.tailroom - bs.length }

/-- Source `memcpy(writableBuffer() + headroom - n, ...); prepend(n)`: write bytes into
the end of the headroom and extend the data region backward over them. -/
def IOBufNode.prependBytes (b : IOBufNode) (bs : List Nat) : IOBufNode :=
  { b with headroom := b.headroom - bs.length, data := bs ++ b.data }

/-- Source `IOBuf::trimStart(n)`: advance the data pointer, shrinking the data
region from the front (requires `n ≤ length`). -/
def IOBufNode.trimStartN (b : IOBufNode) (n : Nat) : IOBufNode :=
  { b with headroom := b.headroom + n, data := b.data.drop n }

/-- Source `IOBuf::trimEnd(n)`: shrink the data region from the back
(requires `n ≤ length`). -/
def IOBufNode.trimEndN (b : IOBufNode) (n : Nat) : IOBufNode :=
  { b with data := b.data.take (b.data.length - n), tailroom := b.tailroom + n }

/-- Source `IOBuf::cloneOne()`: a storage-sharing duplicate of one node; the
storage is shared afterwards. -/
def IOBufNode.cloneOne (b : IOBufNode) : IOBufNode := { b with shared := true }

/-- Source `IOBuf::create(cap)`: freshly allocated unshared node, empty data
region, full capacity as tailroom. -/
def IOBufNode.create (cap : Nat) : IOBufNode := ⟨0, [], cap, false⟩

/-- Source `IOBuf::clear()`: reset the data region to length 0 at the start of the
buffer; capacity is unchanged. -/
def IOBufNode.clearNode (b : IOBufNode) : IOBufNode :=
  ⟨0, [], b.headroom + b.data.length + b.tailroom, b.shared⟩

/-- The committed bytes of a chain, head first. -/
def chainContent (c : List IOBufNode) : List Nat := (c.map IOBufNode.data).flatten

/-- Sum of the nodes' data lengths (`computeChainDataLength`). -/
def sumLens (c : List IOBufNode) : Nat := (c.map IOBufNode.length).sum

/-- Apply `f` to the last node of a chain (the C++ `head_->prev()`). -/
def modifyLast (f : IOBufNode → IOBufNode) : List IOBufNode → List IOBufNode
  | [] => []
  | [b] => [f b]
  | b :: rest => b :: modifyLast f rest

/-- Tailroom of the chain's tail node, 0 for an empty chain. -/
def lastTailroom (c : List IOBufNode) : Nat :=
  match c.getLast? with
  | none => 0
  | some b => b.tailroom

/-- The condition of `IOBufQueue::append(const void*, size_t)` for
allocating a fresh tail node: no chain, or the tail is shared, or the tail
has no tailroom. -/
def needNewNode (c : List IOBufNode) : Bool :=
  match c.getLast? with
  | none => true
  | some b => b.shared || b.tailroom == 0

/-- Constant `MIN_ALLOC_SIZE` from IOBufQueue.cpp. -/
def MIN_ALLOC_SIZE : Nat := 2000

/-- Constant `MAX_ALLOC_SIZE` from IOBufQueue.cpp. -/
def MAX_ALLOC_SIZE : Nat := 8000

/-- Modelled from the spec: `IOBufQueue::kMaxPackCopy`, the fixed pack-copy
budget constant declared in the header (which is not part of src); the spec
fixes no numeric value, so the usual 4096 is used — the theorems only use it
abstractly. -/
def kMaxPackCopy : Nat := 4096

/-- The copy loop of `packInto` (IOBufQueue.cpp): while the leading source
node fits both the remaining budget and the tail's tailroom, copy its bytes
into the tail and advance; returns the new tail, the unconsumed source
nodes, and the number of bytes copied. -/
def packLoop : IOBufNode → List IOBufNode → Nat → IOBufNode × List IOBufNode × Nat
  | tail, [], _ => (tail, [], 0)
  | tail, b :: rest, budget =>
    if b.length ≤ budget ∧ b.length ≤ tail.tailroom then
      let r := packLoop (tail.appendBytes b.data) rest (budget - b.length)
      (r.1, r.2.1, r.2.2 + b.length)
    else (tail, b :: rest, 0)

/-- Source `packInto` (IOBufQueue.cpp): no packing at all into a shared tail;
otherwise run the copy loop with budget `kMaxPackCopy`. -/
def packInto (tail : IOBufNode) (src : List IOBufNode) : IOBufNode × List IOBufNode × Nat :=
  if tail.shared then (tail, src, 0) else packLoop tail src kMaxPackCopy

/-- Source `appendToChain` (IOBufQueue.cpp): empty destination takes the source
wholesale; otherwise optionally pack into the tail (the last node) and
splice the unconsumed source nodes after it. -/
def appendToChain : List IOBufNode → List IOBufNode → Bool → List IOBufNode
  | [], src, _ => src
  | [d], src, pack =>
    if pack then
      let r := packInto d src
      r.1 :: r.2.1
    else d :: src
  | d :: rest, src, pack => d :: appendToChain rest src pack

/-- The queue: head-first chain, cached chain length (`chainLength_`), and
the bytes written into the write-range cache but not yet committed into the
tail node's length (`cachePtr_->cachedRange.first - tailStart_` bytes). -/
structure IOBufQueue where
  chain : List IOBufNode
  chainLength : Nat
  lease : List Nat
deriving DecidableEq, Repr

/-- A default-constructed queue. -/
def emptyQueue : IOBufQueue := ⟨[], 0, []⟩

/-- Source `flushCache` / the entry half of `updateGuard`: commit the pending lease
bytes into the tail node's data region and account for them in
`chainLength_`. -/
def flushCache (q : IOBufQueue) : IOBufQueue :=
  match q.lease with
  | [] => q
  | bs => ⟨modifyLast (fun t => t.appendBytes bs) q.chain, q.chainLength + bs.length, []⟩

/-- The queue's total length: committed chain length plus pending lease
bytes (the `len` computed by `appendToString`). -/
def totalLength (q : IOBufQueue) : Nat := q.chainLength + q.lease.length

/-- All bytes held by the queue: committed chain content then lease bytes. -/
def totalContent (q : IOBufQueue) : List Nat := chainContent q.chain ++ q.lease

/-- Source `IOBufQueue::appendToString`: nothing for an empty chain; otherwise
every data range across the chain in order, then the bytes written into the
uncommitted lease. -/
def appendToString (q : IOBufQueue) : List Nat :=
  match q.chain with
  | [] => []
  | _ => chainContent q.chain ++ q.lease

/-- The loop of `IOBufQueue::append(const void*, size_t)`: while bytes
remain, allocate a fresh tail sized `max(MIN_ALLOC_SIZE, min(len,
MAX_ALLOC_SIZE))` whenever the current tail is missing, shared or full, then
copy `min(len, tailroom)` bytes into the tail; returns the final chain and
the number of bytes accounted into `chainLength_`. -/
def appendLoop : List IOBufNode → List Nat → List IOBufNode × Nat
  | chain, [] => (chain, 0)
  | chain, x :: bs =>
    let chain1 :=
      if needNewNode chain then
        chain ++ [IOBufNode.create (max MIN_ALLOC_SIZE (min (x :: bs).length MAX_ALLOC_SIZE))]
      else chain
    let c := min (x :: bs).length (lastTailroom chain1)
    let chain2 := modifyLast (fun t => t.appendBytes ((x :: bs).take c)) chain1
    let r := appendLoop chain2 ((x :: bs).drop c)
    (r.1, c + r.2)
termination_by _ bs => bs.length
decreasing_by
  simp only [List.length_drop]
  have h1 : 0 < lastTailroom chain1 := by
    show 0 < lastTailroom (if needNewNode chain then _ else _)
    by_cases h : needNewNode chain
    · rw [if_pos h]
      unfold lastTailroom
      rw [List.getLast?_concat]
      show 0 < max MIN_ALLOC_SIZE _
      exact lt_of_lt_of_le (by norm_num [MIN_ALLOC_SIZE]) (le_max_left _ _)
    · rw [Bool.not_eq_true] at h
      rw [h]
      simp only [Bool.false_eq_true, if_false]
      unfold needNewNode at h
      unfold lastTailroom
      cases hc : chain.getLast? with
      | none => rw [hc] at h; simp at h
      | some b =>
        rw [hc] at h
        simp only [Bool.or_eq_false_iff, beq_eq_false_iff_ne, ne_eq] at h
        exact Nat.pos_of_ne_zero h.2
  have h2 : 0 < min (x :: bs).length (lastTailroom chain1) :=
    Nat.lt_min.mpr ⟨by simp, h1⟩
  exact Nat.sub_lt (by simp) h2

/-- Source `IOBufQueue::append(const void*, size_t)`: commit the cache
(`updateGuard`), run the copy loop, and account the copied bytes into
`chainLength_`. -/
def appendRaw (q : IOBufQueue) (bs : List Nat) : IOBufQueue :=
  let q1 := flushCache q
  let r := appendLoop q1.chain bs
  ⟨r.1, q1.chainLength + r.2, []⟩

/-- Source `IOBufQueue::append(IOBufQueue&, pack, ...)`: nothing to do when the other
queue is empty; otherwise commit both caches, splice (optionally packing)
the other queue's chain onto this one, add its cached length, and zero the
source queue. -/
def appendQueue (a b : IOBufQueue) (pack : Bool) : IOBufQueue × IOBufQueue :=
  if b.chain = [] then (a, b)
  else
    let b1 := flushCache b
    let a1 := flushCache a
    (⟨appendToChain a1.chain b1.chain pack, a1.chainLength + b1.chainLength, []⟩,
     ⟨[], 0, []⟩)

/-- Error kinds of the queue: the capacity fault of `prepend`
(`std::overflow_error`) and the undefined null dereference `prepend` commits
on an empty chain before its emptiness test. -/
inductive QueueError where
  | overflowErr
  | nullDeref
deriving DecidableEq, Repr

/-- Source `IOBufQueue::prepend(buf, n)`: the C++ reads `head_->headroom()` before
testing `!head_`, so an empty chain is a null dereference (undefined
behavior), modelled as `nullDeref`; with a head, fail with the capacity
error when `n` exceeds the headroom, else copy the bytes into the headroom,
extend the head backward and grow the length. -/
def prepend (q : IOBufQueue) (bs : List Nat) : Except QueueError IOBufQueue :=
  match q.chain with
  | [] => .error .nullDeref
  | h :: rest =>
    if h.headroom < bs.length then .error .overflowErr
    else .ok ⟨h.prependBytes bs :: rest, q.chainLength + bs.length, q.lease⟩

/-- The loop of `IOBufQueue::split(n, throwOnUnderflow)`.  Arguments:
result accumulator, chain, cached length, `n`, strictness.  On underflow in
strict mode the error carries the queue state at the throw (the chain is
exhausted and the cached length already decremented); otherwise returns the
result chain, the remaining chain and the remaining cached length. -/
def splitLoop (result chain : List IOBufNode) (cl n : Nat) (strict : Bool) :
    Except (List IOBufNode × Nat) (List IOBufNode × List IOBufNode × Nat) :=
  if n = 0 then .ok (result, chain, cl)
  else
    match chain with
    | [] => if strict then .error ([], cl) else .ok (result, [], cl)
    | h :: rest =>
      if h.length ≤ n then
        splitLoop (appendToChain result [h] false) rest (cl - h.length) (n - h.length) strict
      else
        .ok (appendToChain result [(h.cloneOne).trimEndN (h.length - n)] false,
             ({ h with shared := true }).trimStartN n :: rest, cl - n)

/-- Source `IOBufQueue::split(n, throwOnUnderflow)`: commit the cache, run the
loop; a null result becomes a freshly created empty buffer. -/
def split (q : IOBufQueue) (n : Nat) (throwOnUnderflow : Bool) :
    Except IOBufQueue (List IOBufNode × IOBufQueue) :=
  let q1 := flushCache q
  match splitLoop [] q1.chain q1.chainLength n throwOnUnderflow with
  | .error e => .error ⟨e.1, e.2, []⟩
  | .ok r => .ok (if r.1 = [] then [IOBufNode.create 0] else r.1, ⟨r.2.1, r.2.2, []⟩)

/-- The loop of `IOBufQueue::trimStartAtMost`: release or shrink nodes from
the front; returns the chain, the cached length and the amount still
unsatisfied. -/
def trimStartLoop (chain : List IOBufNode) (cl amount : Nat) :
    List IOBufNode × Nat × Nat :=
  if amount = 0 then (chain, cl, 0)
  else
    match chain with
    | [] => ([], cl, amount)
    | h :: rest =>
      if amount < h.length then (h.trimStartN amount :: rest, cl - amount, 0)
      else trimStartLoop rest (cl - h.length) (amount - h.length)

/-- Source `IOBufQueue::trimStartAtMost(amount)`: commit the cache, run the loop,
return the number of bytes actually removed and the new queue. -/
def trimStartAtMost (q : IOBufQueue) (amount : Nat) : Nat × IOBufQueue :=
  let q1 := flushCache q
  let r := trimStartLoop q1.chain q1.chainLength amount
  (amount - r.2.2, ⟨r.1, r.2.1, []⟩)

/-- Source `IOBufQueue::trimStart(amount)`: delegate to `trimStartAtMost` and fail
with underflow when fewer bytes were available; the error carries the queue
state at the throw (the best-effort trim has already run). -/
def trimStart (q : IOBufQueue) (amount : Nat) : Except IOBufQueue IOBufQueue :=
  let r := trimStartAtMost q amount
  if r.1 ≠ amount then .error r.2 else .ok r.2

/-- The loop of `IOBufQueue::trimEndAtMost`, phrased on the reversed chain
(the C++ walks `head_->prev()`): release or shrink nodes from the back. -/
def trimEndLoopRev (chainRev : List IOBufNode) (cl amount : Nat) :
    List IOBufNode × Nat × Nat :=
  if amount = 0 then (chainRev, cl, 0)
  else
    match chainRev with
    | [] => ([], cl, amount)
    | t :: rest =>
      if amount < t.length then (t.trimEndN amount :: rest, cl - amount, 0)
      else trimEndLoopRev rest (cl - t.length) (amount - t.length)

/-- Source `IOBufQueue::trimEndAtMost(amount)`: commit the cache, run the loop on
the reversed chain, return the bytes removed and the new queue. -/
def trimEndAtMost (q : IOBufQueue) (amount : Nat) : Nat × IOBufQueue :=
  let q1 := flushCache q
  let r := trimEndLoopRev q1.chain.reverse q1.chainLength amount
  (amount - r.2.2, ⟨r.1.reverse, r.2.1, []⟩)

/-- Source `IOBufQueue::trimEnd(amount)`: delegate to `trimEndAtMost` and fail with
underflow when fewer bytes were available. -/
def trimEnd (q : IOBufQueue) (amount : Nat) : Except IOBufQueue IOBufQueue :=
  let r := trimEndAtMost q amount
  if r.1 ≠ amount then .error r.2 else .ok r.2

/-- The selection loop of `clearAndTryReuseLargestBuffer`: keep the first
unshared node whose capacity strictly exceeds the best seen so far. -/
def pickBest : Option IOBufNode → List IOBufNode → Option IOBufNode
  | best, [] => best
  | best, b :: rest =>
    if b.shared then pickBest best rest
    else
      match best with
      | none => pickBest (some b) rest
      | some a => if a.capacity < b.capacity then pickBest (some b) rest else pickBest (some a) rest

/-- Source `IOBufQueue::clearAndTryReuseLargestBuffer`: commit the cache, release
every node except the largest-capacity unshared one, clear it, and zero the
length. -/
def clearAndTryReuseLargestBuffer (q : IOBufQueue) : IOBufQueue :=
  let q1 := flushCache q
  match pickBest none q1.chain with
  | none => ⟨[], 0, []⟩
  | some b => ⟨[b.clearNode], 0, []⟩

/-- Source `IOBufQueue::preallocateSlow(min, newAllocationSize, max)`: commit the
cache, allocate a node of capacity `max(min, newAllocationSize)`, splice it
on without packing, and anchor an empty lease at it. -/
def preallocateSlow (q : IOBufQueue) (minB newAllocationSize : Nat) : IOBufQueue :=
  let q1 := flushCache q
  ⟨appendToChain q1.chain [IOBufNode.create (max minB newAllocationSize)] false,
   q1.chainLength, []⟩

/-- A `preallocate(len, len) … postallocate(len)` round-trip writing `bs`
through the write-range cache: the fast path appends the bytes to the
pending lease when the tail's untaken lease room suffices; the slow path
goes through `preallocateSlow` and leases the fresh node. -/
def preallocateWrite (q : IOBufQueue) (bs : List Nat) : IOBufQueue :=
  if q.chain ≠ [] ∧ bs.length ≤ lastTailroom q.chain - q.lease.length then
    ⟨q.chain, q.chainLength, q.lease ++ bs⟩
  else
    let q1 := preallocateSlow q bs.length bs.length
    ⟨q1.chain, q1.chainLength, bs⟩

/-- One appended byte sequence: either through
`append(const void*, size_t)` or through the write-range cache. -/
inductive AppendSource where
  | raw (bs : List Nat)
  | viaLease (bs : List Nat)
deriving DecidableEq, Repr

/-- The bytes an append source carries. -/
def AppendSource.bytes : AppendSource → List Nat
  | .raw bs => bs
  | .viaLease bs => bs

/-- Run one append against the queue. -/
def applyAppend (q : IOBufQueue) : AppendSource → IOBufQueue
  | .raw bs => appendRaw q bs
  | .viaLease bs => preallocateWrite q bs

/-- Run a sequence of appends against the empty queue. -/
def runAppends (ops : List AppendSource) : IOBufQueue :=
  ops.foldl applyAppend emptyQueue

/-- The length-cache invariant: `chainLength_` equals the sum of the node
lengths, the pending lease fits in the tail's tailroom, and only a
non-empty chain can carry a lease. -/
def IOBufQueue.wf (q : IOBufQueue) : Prop :=
  q.chainLength = sumLens q.chain ∧
  q.lease.length ≤ lastTailroom q.chain ∧
  (q.chain = [] → q.lease = [])

/-! ### Basic chain algebra -/

theorem IOBufNode.appendBytes_nil (b : IOBufNode) : b.appendBytes [] = b := by
  simp [IOBufNode.appendBytes]

theorem IOBufNode.appendBytes_append (b : IOBufNode) (xs ys : List Nat) :
    (b.appendBytes xs).appendBytes ys = b.appendBytes (xs ++ ys) := by
  simp [IOBufNode.appendBytes, Nat.sub_sub]

theorem IOBufNode.capacity_appendBytes (b : IOBufNode) (bs : List Nat)
    (h : bs.length ≤ b.tailroom) : (b.appendBytes bs).capacity = b.capacity := by
  simp only [IOBufNode.capacity, IOBufNode.appendBytes, List.length_append]
  omega

theorem chainContent_nil : chainContent [] = [] := rfl

theorem chainContent_cons (b : IOBufNode) (c : List IOBufNode) :
    chainContent (b :: c) = b.data ++ chainContent c := by
  simp [chainContent]

theorem chainContent_append (c d : List IOBufNode) :
    chainContent (c ++ d) = chainContent c ++ chainContent d := by
  simp [chainContent]

theorem sumLens_nil : sumLens [] = 0 := rfl

theorem sumLens_cons (b : IOBufNode) (c : List IOBufNode) :
    sumLens (b :: c) = b.length + sumLens c := by
  simp [sumLens]

theorem sumLens_append (c d : List IOBufNode) :
    sumLens (c ++ d) = sumLens c + sumLens d := by
  simp [sumLens]

theorem chainContent_length (c : List IOBufNode) :
    (chainContent c).length = sumLens c := by
  induction c with
  | nil => rfl
  | cons b c ih =>
    simp [chainContent_cons, sumLens_cons, ih, IOBufNode.length]

theorem sumLens_reverse (c : List IOBufNode) : sumLens c.reverse = sumLens c := by
  simp only [sumLens, List.map_reverse]
  exact List.sum_reverse _

theorem modifyLast_ne_nil (f : IOBufNode → IOBufNode) (l : List IOBufNode) (h : l ≠ []) :
    modifyLast f l ≠ [] := by
  cases l with
  | nil => exact absurd rfl h
  | cons b rest =>
    cases rest with
    | nil => simp [modifyLast]
    | cons c l2 => simp [modifyLast]

theorem modifyLast_cons_of_ne (f : IOBufNode → IOBufNode) (b : IOBufNode)
    (rest : List IOBufNode) (h : rest ≠ []) :
    modifyLast f (b :: rest) = b :: modifyLast f rest := by
  cases rest with
  | nil => exact absurd rfl h
  | cons c l2 => simp [modifyLast]

theorem modifyLast_concat (f : IOBufNode → IOBufNode) :
    ∀ (l : List IOBufNode) (x : IOBufNode), modifyLast f (l ++ [x]) = l ++ [f x] := by
  intro l
  induction l with
  | nil => intro x; rfl
  | cons b l ih =>
    intro x
    rw [List.cons_append, modifyLast_cons_of_ne f b (l ++ [x]) (by simp), ih, List.cons_append]

theorem modifyLast_modifyLast (f g : IOBufNode → IOBufNode) :
    ∀ l : List IOBufNode,
      modifyLast f (modifyLast g l) = modifyLast (fun b => f (g b)) l := by
  intro l
  induction l with
  | nil => rfl
  | cons b l ih =>
    cases l with
    | nil => rfl
    | cons c l2 =>
      rw [modifyLast_cons_of_ne g b (c :: l2) (by simp),
        modifyLast_cons_of_ne f b (modifyLast g (c :: l2))
          (modifyLast_ne_nil g (c :: l2) (by simp)),
        ih, modifyLast_cons_of_ne _ b (c :: l2) (by simp)]

theorem modifyLast_getLastQ (f : IOBufNode → IOBufNode) :
    ∀ l : List IOBufNode, (modifyLast f l).getLast? = l.getLast?.map f := by
  intro l
  induction l with
  | nil => rfl
  | cons b l ih =>
    cases l with
    | nil => rfl
    | cons c l2 =>
      rw [modifyLast_cons_of_ne f b (c :: l2) (by simp)]
      obtain ⟨y, ys, hy⟩ :=
        List.exists_cons_of_ne_nil (modifyLast_ne_nil f (c :: l2) (by simp))
      rw [hy, List.getLast?_cons_cons, ← hy, ih, List.getLast?_cons_cons]

theorem lastTailroom_concat (l : List IOBufNode) (x : IOBufNode) :
    lastTailroom (l ++ [x]) = x.tailroom := by
  unfold lastTailroom
  rw [List.getLast?_concat]

theorem lastTailroom_modifyLast_appendBytes (xs : List Nat) (l : List IOBufNode) :
    lastTailroom (modifyLast (fun t => t.appendBytes xs) l) = lastTailroom l - xs.length := by
  unfold lastTailroom
  rw [modifyLast_getLastQ]
  cases l.getLast? with
  | none => simp
  | some b => simp [IOBufNode.appendBytes]

theorem modifyLast_appendBytes_nil :
    ∀ l : List IOBufNode, modifyLast (fun t => t.appendBytes []) l = l := by
  intro l
  induction l with
  | nil => rfl
  | cons b l ih =>
    cases l with
    | nil => simp [modifyLast, IOBufNode.appendBytes_nil]
    | cons c l2 =>
      rw [modifyLast_cons_of_ne _ b (c :: l2) (by simp), ih]

theorem modifyLast_content (xs : List Nat) :
    ∀ l : List IOBufNode, l ≠ [] →
      chainContent (modifyLast (fun t => t.appendBytes xs) l) = chainContent l ++ xs := by
  intro l
  induction l with
  | nil => intro h; exact absurd rfl h
  | cons b l ih =>
    intro _
    cases l with
    | nil => simp [modifyLast, chainContent, IOBufNode.appendBytes]
    | cons c l2 =>
      rw [modifyLast_cons_of_ne _ b (c :: l2) (by simp), chainContent_cons,
        chainContent_cons, ih (by simp), List.append_assoc]

theorem sumLens_modifyLast_appendBytes (xs : List Nat) (l : List IOBufNode) (h : l ≠ []) :
    sumLens (modifyLast (fun t => t.appendBytes xs) l) = sumLens l + xs.length := by
  rw [← chainContent_length, modifyLast_content xs l h]
  simp [chainContent_length]

/-! ### flushCache lemmas -/

theorem flushCache_of_nil (q : IOBufQueue) (h : q.lease = []) : flushCache q = q := by
  simp [flushCache, h]

theorem flushCache_lease (q : IOBufQueue) : (flushCache q).lease = [] := by
  cases hl : q.lease with
  | nil => simp [flushCache, hl]
  | cons a l => simp [flushCache, hl]

theorem flushCache_chainLength (q : IOBufQueue) :
    (flushCache q).chainLength = totalLength q := by
  cases hl : q.lease with
  | nil => simp [flushCache, hl, totalLength]
  | cons a l => simp [flushCache, hl, totalLength]

theorem flushCache_content (q : IOBufQueue) (h3 : q.chain = [] → q.lease = []) :
    totalContent (flushCache q) = totalContent q := by
  cases hl : q.lease with
  | nil => rw [flushCache_of_nil q hl]
  | cons a l =>
    have hch : q.chain ≠ [] := by
      intro hc
      rw [h3 hc] at hl
      exact List.noConfusion hl
    simp only [flushCache, hl, totalContent]
    rw [← hl, modifyLast_content q.lease q.chain hch]
    simp

theorem flushCache_chain_eq_of_nil (q : IOBufQueue) (h : q.lease = []) :
    (flushCache q).chain = q.chain := by
  rw [flushCache_of_nil q h]

theorem flushCache_sumLens (q : IOBufQueue)
    (h1 : q.chainLength = sumLens q.chain) (h3 : q.chain = [] → q.lease = []) :
    (flushCache q).chainLength = sumLens (flushCache q).chain := by
  cases hl : q.lease with
  | nil => rw [flushCache_of_nil q hl]; exact h1
  | cons a l =>
    have hch : q.chain ≠ [] := by
      intro hc
      rw [h3 hc] at hl
      exact List.noConfusion hl
    simp only [flushCache, hl]
    rw [← hl, sumLens_modifyLast_appendBytes q.lease q.chain hch, h1, hl]

/-! ### appendToChain lemmas -/

theorem appendToChain_cons (d : IOBufNode) (rest : List IOBufNode) (hr : rest ≠ [])
    (s : List IOBufNode) (p : Bool) :
    appendToChain (d :: rest) s p = d :: appendToChain rest s p := by
  cases rest with
  | nil => exact absurd rfl hr
  | cons e es => simp [appendToChain]

theorem appendToChain_false : ∀ (d s : List IOBufNode), appendToChain d s false = d ++ s := by
  intro d
  induction d with
  | nil => intro s; rfl
  | cons b rest ih =>
    intro s
    cases rest with
    | nil => simp [appendToChain]
    | cons e es =>
      rw [appendToChain_cons b (e :: es) (by simp) s false, ih]
      rfl

/-! ### packInto lemmas -/

theorem packLoop_content : ∀ (src : List IOBufNode) (tail : IOBufNode) (budget : Nat),
    (packLoop tail src budget).1.data ++ chainContent (packLoop tail src budget).2.1 =
      tail.data ++ chainContent src := by
  intro src
  induction src with
  | nil => intro tail budget; simp [packLoop, chainContent]
  | cons b rest ih =>
    intro tail budget
    by_cases h : b.length ≤ budget ∧ b.length ≤ tail.tailroom
    · simp only [packLoop, h, and_self, if_true]
      have := ih (tail.appendBytes b.data) (budget - b.length)
      rw [this]
      simp [IOBufNode.appendBytes, chainContent_cons]
    · simp [packLoop, h]

theorem packLoop_spec : ∀ (src : List IOBufNode) (tail : IOBufNode) (budget : Nat),
    (packLoop tail src budget).2.2 ≤ budget ∧
    (∃ pre, src = pre ++ (packLoop tail src budget).2.1 ∧
      (packLoop tail src budget).2.2 = sumLens pre ∧
      (packLoop tail src budget).1 = tail.appendBytes (chainContent pre)) ∧
    (∀ b2 rest2, (packLoop tail src budget).2.1 = b2 :: rest2 →
      ¬(b2.length ≤ budget - (packLoop tail src budget).2.2 ∧
        b2.length ≤ (packLoop tail src budget).1.tailroom)) := by
  intro src
  induction src with
  | nil =>
    intro tail budget
    refine ⟨Nat.zero_le _, ⟨[], by simp [packLoop], by simp [packLoop, sumLens],
      by simp [packLoop, chainContent, IOBufNode.appendBytes_nil]⟩, ?_⟩
    intro b2 rest2 heq
    simp [packLoop] at heq
  | cons b rest ih =>
    intro tail budget
    by_cases h : b.length ≤ budget ∧ b.length ≤ tail.tailroom
    · obtain ⟨ihb, ⟨pre, hpre, hcnt, htl⟩, ihstop⟩ := ih (tail.appendBytes b.data) (budget - b.length)
      simp only [packLoop, h, and_self, if_true]
      refine ⟨by omega, ⟨b :: pre, ?_, ?_, ?_⟩, ?_⟩
      · rw [List.cons_append, ← hpre]
      · rw [sumLens_cons]; omega
      · rw [htl, chainContent_cons, ← IOBufNode.appendBytes_append]
      · intro b2 rest2 heq h2
        refine ihstop b2 rest2 heq ⟨?_, h2.2⟩
        omega
    · simp only [packLoop, h, if_false]
      refine ⟨Nat.zero_le _, ⟨[], by simp, by simp [sumLens],
        by simp [chainContent, IOBufNode.appendBytes_nil]⟩, ?_⟩
      intro b2 rest2 heq h2
      cases heq
      exact h ⟨by omega, h2.2⟩

theorem packInto_content (tail : IOBufNode) (src : List IOBufNode) :
    (packInto tail src).1.data ++ chainContent (packInto tail src).2.1 =
      tail.data ++ chainContent src := by
  unfold packInto
  by_cases h : tail.shared
  · simp [h]
  · simp only [h, if_false, Bool.false_eq_true]
    exact packLoop_content src tail kMaxPackCopy

theorem appendToChain_content : ∀ (d s : List IOBufNode) (p : Bool),
    chainContent (appendToChain d s p) = chainContent d ++ chainContent s := by
  intro d
  induction d with
  | nil => intro s p; rfl
  | cons x rest ih =>
    intro s p
    cases rest with
    | nil =>
      cases p with
      | false => simp [appendToChain, chainContent_cons, chainContent_nil]
      | true =>
        simp only [appendToChain, if_true]
        rw [chainContent_cons, packInto_content x s]
        simp [chainContent_cons, chainContent_nil]
    | cons e es =>
      rw [appendToChain_cons x (e :: es) (by simp) s p, chainContent_cons, ih]
      simp [chainContent_cons, List.append_assoc]

theorem appendToChain_last_pack :
    ∀ (ds : List IOBufNode) (tail : IOBufNode) (src : List IOBufNode),
      appendToChain (ds ++ [tail]) src true =
        ds ++ (packInto tail src).1 :: (packInto tail src).2.1 := by
  intro ds
  induction ds with
  | nil => intro tail src; simp [appendToChain]
  | cons d ds ih =>
    intro tail src
    rw [List.cons_append, appendToChain_cons d (ds ++ [tail]) (by simp) src true, ih,
      List.cons_append]

/-! ### split loop lemmas -/

theorem splitLoop_underflow :
    ∀ (chain res : List IOBufNode) (cl n : Nat), sumLens chain < n →
      splitLoop res chain cl n true = .error ([], cl - sumLens chain) := by
  intro chain
  induction chain with
  | nil =>
    intro res cl n h
    have hn : n ≠ 0 := by simp [sumLens_nil] at h; omega
    simp [splitLoop, hn, sumLens_nil]
  | cons b rest ih =>
    intro res cl n h
    rw [sumLens_cons] at h
    have hn : n ≠ 0 := by omega
    have hle : b.length ≤ n := by omega
    rw [splitLoop, if_neg hn]
    simp only [hle, if_true]
    rw [ih _ (cl - b.length) (n - b.length) (by omega), sumLens_cons, Nat.sub_sub]

theorem splitLoop_ok :
    ∀ (chain res : List IOBufNode) (cl n : Nat) (strict : Bool), n ≤ sumLens chain →
      ∃ t chain2, splitLoop res chain cl n strict = .ok (res ++ t, chain2, cl - n) ∧
        chainContent t = (chainContent chain).take n ∧
        chainContent chain2 = (chainContent chain).drop n ∧
        sumLens chain2 = sumLens chain - n ∧
        (t = [] ↔ n = 0) := by
  intro chain
  induction chain with
  | nil =>
    intro res cl n strict h
    have hn : n = 0 := by rw [sumLens_nil] at h; omega
    subst hn
    exact ⟨[], [], by simp [splitLoop], by simp [chainContent], by simp [chainContent],
      by simp, by simp⟩
  | cons b rest ih =>
    intro res cl n strict h
    rw [sumLens_cons] at h
    by_cases hn : n = 0
    · subst hn
      exact ⟨[], b :: rest, by simp [splitLoop], by simp [chainContent], by simp,
        by simp [sumLens_cons], by simp⟩
    · by_cases hle : b.length ≤ n
      · obtain ⟨t, chain2, heq, hct, hcd, hsl, hiff⟩ :=
          ih (appendToChain res [b] false) (cl - b.length) (n - b.length) strict (by omega)
        refine ⟨b :: t, chain2, ?_, ?_, ?_, ?_, by simp [hn]⟩
        · rw [splitLoop, if_neg hn]
          simp only [hle, if_true]
          rw [heq, appendToChain_false]
          have h1 : (cl - b.length) - (n - b.length) = cl - n := by omega
          have h2 : (res ++ [b]) ++ t = res ++ (b :: t) := by simp
          rw [h1, h2]
        · rw [chainContent_cons, chainContent_cons, hct,
            List.take_append_eq_append_take]
          have h3 : b.data.take n = b.data := List.take_of_length_le hle
          rw [h3]
          rfl
        · rw [hcd, chainContent_cons, List.drop_append_eq_append_drop]
          have h4 : b.data.drop n = [] := List.drop_eq_nil_of_le hle
          rw [h4]
          rfl
        · rw [hsl, sumLens_cons]
          omega
      · have hlt : n < b.length := by omega
        refine ⟨[(b.cloneOne).trimEndN (b.length - n)],
          ({ b with shared := true }).trimStartN n :: rest, ?_, ?_, ?_, ?_, by simp [hn]⟩
        · rw [splitLoop, if_neg hn]
          simp only [hle, if_false]
          rw [appendToChain_false]
        · rw [chainContent_cons b rest, List.take_append_eq_append_take]
          have h5 : n - b.data.length = 0 := by
            simp only [IOBufNode.length] at hlt
            omega
          rw [h5, List.take_zero, List.append_nil]
          simp only [chainContent_cons, chainContent_nil, List.append_nil,
            IOBufNode.cloneOne, IOBufNode.trimEndN, IOBufNode.length]
          have h6 : b.data.length - (b.data.length - n) = n := by
            simp only [IOBufNode.length] at hlt
            omega
          rw [h6]
        · rw [chainContent_cons b rest, List.drop_append_eq_append_drop]
          have h5 : n - b.data.length = 0 := by
            simp only [IOBufNode.length] at hlt
            omega
          rw [h5, List.drop_zero]
          simp [IOBufNode.trimStartN, chainContent_cons]
        · rw [sumLens_cons, sumLens_cons]
          simp only [IOBufNode.trimStartN, IOBufNode.length, List.length_drop]
          simp only [IOBufNode.length] at h hlt
          omega

/-! ### trim loop lemmas -/

theorem trimStartLoop_spec :
    ∀ (chain : List IOBufNode) (amount : Nat),
      chainContent (trimStartLoop chain (sumLens chain) amount).1 =
          (chainContent chain).drop amount ∧
        (trimStartLoop chain (sumLens chain) amount).2.1 =
          sumLens (trimStartLoop chain (sumLens chain) amount).1 ∧
        (trimStartLoop chain (sumLens chain) amount).2.2 = amount - sumLens chain ∧
        (sumLens chain < amount → (trimStartLoop chain (sumLens chain) amount).1 = []) := by
  intro chain
  induction chain with
  | nil =>
    intro amount
    by_cases ha : amount = 0
    · subst ha
      simp [trimStartLoop, sumLens_nil]
    · simp [trimStartLoop, ha, sumLens_nil, chainContent]
  | cons b rest ih =>
    intro amount
    by_cases ha : amount = 0
    · subst ha
      simp [trimStartLoop, sumLens_cons]
    · by_cases hlt : amount < b.length
      · rw [trimStartLoop, if_neg ha]
        simp only [hlt, if_true]
        have hlen : amount ≤ b.data.length := le_of_lt hlt
        refine ⟨?_, ?_, ?_, ?_⟩
        · rw [chainContent_cons, chainContent_cons, List.drop_append_eq_append_drop]
          have h5 : amount - b.data.length = 0 := by omega
          rw [h5, List.drop_zero]
          simp [IOBufNode.trimStartN]
        · rw [sumLens_cons, sumLens_cons]
          simp only [IOBufNode.trimStartN, IOBufNode.length, List.length_drop]
          omega
        · rw [sumLens_cons]
          have : amount ≤ b.length + sumLens rest := by
            simp only [IOBufNode.length]
            omega
          omega
        · intro hcon
          rw [sumLens_cons] at hcon
          simp only [IOBufNode.length] at hcon hlt
          omega
      · rw [trimStartLoop, if_neg ha]
        simp only [hlt, if_false]
        have hle : b.length ≤ amount := by omega
        have hrw : sumLens (b :: rest) - b.length = sumLens rest := by
          rw [sumLens_cons]; omega
        rw [hrw]
        obtain ⟨ih1, ih2, ih3, ih4⟩ := ih (amount - b.length)
        refine ⟨?_, ih2, ?_, ?_⟩
        · rw [ih1, chainContent_cons, List.drop_append_eq_append_drop]
          have h4 : b.data.drop amount = [] := by
            apply List.drop_eq_nil_of_le
            exact hle
          rw [h4]
          simp [IOBufNode.length]
        · rw [ih3, sumLens_cons]
          omega
        · intro hcon
          rw [sumLens_cons] at hcon
          exact ih4 (by omega)

theorem trimEndLoopRev_underflow :
    ∀ (chainRev : List IOBufNode) (amount : Nat), sumLens chainRev < amount →
      trimEndLoopRev chainRev (sumLens chainRev) amount = ([], 0, amount - sumLens chainRev) := by
  intro chainRev
  induction chainRev with
  | nil =>
    intro amount h
    rw [sumLens_nil] at h
    have ha : amount ≠ 0 := by omega
    simp [trimEndLoopRev, ha, sumLens_nil]
  | cons b rest ih =>
    intro amount h
    rw [sumLens_cons] at h
    have ha : amount ≠ 0 := by omega
    have hlt : ¬amount < b.length := by omega
    rw [trimEndLoopRev, if_neg ha]
    simp only [hlt, if_false]
    have hrw : sumLens (b :: rest) - b.length = sumLens rest := by
      rw [sumLens_cons]; omega
    rw [hrw, ih (amount - b.length) (by omega), sumLens_cons]
    have : amount - b.length - sumLens rest = amount - (b.length + sumLens rest) := by omega
    rw [this]

/-! ### appendLoop lemmas -/

theorem modifyLast_congr (f g : IOBufNode → IOBufNode) (hfg : ∀ b, f b = g b) :
    ∀ l : List IOBufNode, modifyLast f l = modifyLast g l := by
  intro l
  induction l with
  | nil => rfl
  | cons b l ih =>
    cases l with
    | nil => simp [modifyLast, hfg]
    | cons c l2 =>
      rw [modifyLast_cons_of_ne f b (c :: l2) (by simp),
        modifyLast_cons_of_ne g b (c :: l2) (by simp), ih]

theorem chain_ne_of_not_needNewNode (chain : List IOBufNode)
    (h : ¬needNewNode chain = true) : chain ≠ [] := by
  intro hc
  subst hc
  simp [needNewNode] at h

theorem appendLoop_spec :
    ∀ (chain : List IOBufNode) (bs : List Nat),
      chainContent (appendLoop chain bs).1 = chainContent chain ++ bs ∧
      (appendLoop chain bs).2 = bs.length ∧
      ∃ ys ext, ys.length ≤ lastTailroom chain ∧
        (appendLoop chain bs).1 = modifyLast (fun t => t.appendBytes ys) chain ++ ext ∧
        ∀ b2 ∈ ext, MIN_ALLOC_SIZE ≤ b2.capacity ∧ b2.capacity ≤ MAX_ALLOC_SIZE := by
  intro chain bs
  induction chain, bs using appendLoop.induct with
  | case1 chain =>
    refine ⟨by simp [appendLoop], by simp [appendLoop], [], [], by simp, ?_, by simp⟩
    simp [appendLoop, modifyLast_appendBytes_nil]
  | case2 chain x bs chain1 c chain2 ih =>
    rw [appendLoop]
    simp only [chain1, c, chain2] at ih ⊢
    by_cases h : needNewNode chain = true
    · simp only [h, dite_true, if_true] at ih ⊢
      rw [lastTailroom_concat] at ih ⊢
      set L := (x :: bs).length with hL
      set K := MIN_ALLOC_SIZE ⊔ (L ⊓ MAX_ALLOC_SIZE) with hK
      have htr : (IOBufNode.create K).tailroom = K := rfl
      rw [htr] at ih ⊢
      set cc := L ⊓ K with hcc
      have hcL : cc ≤ L := Nat.min_le_left _ _
      have hcK : cc ≤ K := Nat.min_le_right _ _
      rw [modifyLast_concat] at ih ⊢
      obtain ⟨ih1, ih2, ys2, ext2, hys2, hdec, hcaps⟩ := ih
      have htk : ((x :: bs).take cc).length = cc := by
        rw [List.length_take]
        exact Nat.min_eq_left (by rw [← hL]; exact hcL)
      have hfd : ((IOBufNode.create K).appendBytes ((x :: bs).take cc)).data =
          (x :: bs).take cc := by
        simp [IOBufNode.create, IOBufNode.appendBytes]
      refine ⟨?_, ?_, [], ((IOBufNode.create K).appendBytes ((x :: bs).take cc)).appendBytes ys2 :: ext2,
        by simp, ?_, ?_⟩
      · rw [ih1, chainContent_append, chainContent_cons, chainContent_nil, List.append_nil,
          hfd, List.append_assoc, List.take_append_drop]
      · rw [ih2, List.length_drop, ← hL]
        omega
      · rw [hdec, modifyLast_concat, modifyLast_appendBytes_nil]
        simp
      · intro b2 hb2
        rcases List.mem_cons.mp hb2 with hb2 | hb2
        · subst hb2
          have hys2tr : ys2.length ≤ K - cc := by
            rw [lastTailroom_concat] at hys2
            have : ((IOBufNode.create K).appendBytes ((x :: bs).take cc)).tailroom = K - cc := by
              simp [IOBufNode.create, IOBufNode.appendBytes, htk]
            rw [this] at hys2
            exact hys2
          rw [IOBufNode.appendBytes_append]
          have hcap : (((IOBufNode.create K).appendBytes ((x :: bs).take cc ++ ys2))).capacity =
              (IOBufNode.create K).capacity := by
            apply IOBufNode.capacity_appendBytes
            rw [List.length_append, htk]
            show cc + ys2.length ≤ (IOBufNode.create K).tailroom
            rw [htr]
            omega
          rw [hcap]
          have hcreate : (IOBufNode.create K).capacity = K := by
            simp [IOBufNode.create, IOBufNode.capacity]
          rw [hcreate, hK]
          constructor
          · exact le_max_left _ _
          · apply max_le
            · show MIN_ALLOC_SIZE ≤ MAX_ALLOC_SIZE
              decide
            · exact Nat.min_le_right _ _
        · exact hcaps b2 hb2
    · have hne : chain ≠ [] := chain_ne_of_not_needNewNode chain h
      rw [Bool.not_eq_true] at h
      simp only [h, Bool.false_eq_true, dite_false, if_false] at ih ⊢
      set L := (x :: bs).length with hL
      set cc := L ⊓ lastTailroom chain with hcc
      have hcL : cc ≤ L := Nat.min_le_left _ _
      have hcT : cc ≤ lastTailroom chain := Nat.min_le_right _ _
      have htk : ((x :: bs).take cc).length = cc := by
        rw [List.length_take]
        exact Nat.min_eq_left (by rw [← hL]; exact hcL)
      obtain ⟨ih1, ih2, ys2, ext2, hys2, hdec, hcaps⟩ := ih
      refine ⟨?_, ?_, (x :: bs).take cc ++ ys2, ext2, ?_, ?_, hcaps⟩
      · rw [ih1, modifyLast_content _ chain hne, List.append_assoc, List.take_append_drop]
      · rw [ih2, List.length_drop, ← hL]
        omega
      · rw [lastTailroom_modifyLast_appendBytes, htk] at hys2
        rw [List.length_append, htk]
        omega
      · rw [hdec, modifyLast_modifyLast]
        congr 1
        apply modifyLast_congr
        intro b2
        rw [IOBufNode.appendBytes_append]

/-! ### pickBest lemmas -/

theorem pickBest_spec :
    ∀ (l : List IOBufNode) (acc : Option IOBufNode),
      (pickBest acc l = none ↔ acc = none ∧ l.filter (fun b2 => !b2.shared) = []) ∧
      (∀ b, pickBest acc l = some b →
        ∃ pre post,
          acc.toList ++ l.filter (fun b2 => !b2.shared) = pre ++ b :: post ∧
          (∀ x ∈ pre, x.capacity < b.capacity) ∧
          (∀ x ∈ acc.toList ++ l.filter (fun b2 => !b2.shared), x.capacity ≤ b.capacity)) := by
  intro l
  induction l with
  | nil =>
    intro acc
    constructor
    · cases acc with
      | none => simp [pickBest]
      | some a => simp [pickBest]
    · intro b hb
      cases acc with
      | none => simp [pickBest] at hb
      | some a =>
        simp only [pickBest] at hb
        cases hb
        exact ⟨[], [], by simp, by simp, by simp⟩
  | cons b rest ih =>
    intro acc
    by_cases hs : b.shared
    · have hfil : (b :: rest).filter (fun b2 => !b2.shared) =
          rest.filter (fun b2 => !b2.shared) := by
        simp [List.filter_cons, hs]
      have hstep : pickBest acc (b :: rest) = pickBest acc rest := by
        simp [pickBest, hs]
      rw [hstep, hfil]
      exact ih acc
    · have hfil : (b :: rest).filter (fun b2 => !b2.shared) =
          b :: rest.filter (fun b2 => !b2.shared) := by
        simp [List.filter_cons, hs]
      rw [hfil]
      cases acc with
      | none =>
        have hstep : pickBest none (b :: rest) = pickBest (some b) rest := by
          simp [pickBest, hs]
        rw [hstep]
        obtain ⟨ihn, ihs⟩ := ih (some b)
        constructor
        · constructor
          · intro hnone
            exact absurd (ihn.mp hnone).1 (by simp)
          · rintro ⟨-, habs⟩
            cases habs
        · intro r hr
          obtain ⟨pre, post, hlist, hpre, hmax⟩ := ihs r hr
          refine ⟨pre, post, ?_, hpre, ?_⟩
          · simpa using hlist
          · intro x hx
            exact hmax x (by simpa using hx)
      | some a =>
        by_cases hcap : a.capacity < b.capacity
        · have hstep : pickBest (some a) (b :: rest) = pickBest (some b) rest := by
            simp [pickBest, hs, hcap]
          rw [hstep]
          obtain ⟨ihn, ihs⟩ := ih (some b)
          constructor
          · constructor
            · intro hnone
              exact absurd (ihn.mp hnone).1 (by simp)
            · rintro ⟨habs, -⟩
              cases habs
          · intro r hr
            obtain ⟨pre, post, hlist, hpre, hmax⟩ := ihs r hr
            have hbr : b.capacity ≤ r.capacity := hmax b (by simp)
            refine ⟨a :: pre, post, ?_, ?_, ?_⟩
            · simp only [Option.toList] at hlist ⊢
              simp only [List.cons_append, List.nil_append] at hlist ⊢
              rw [hlist]
            · intro x hx
              rcases List.mem_cons.mp hx with hx | hx
              · subst hx; omega
              · exact hpre x hx
            · intro x hx
              rcases List.mem_cons.mp hx with hx | hx
              · subst hx; omega
              · exact hmax x (by simpa using hx)
        · have hstep : pickBest (some a) (b :: rest) = pickBest (some a) rest := by
            simp [pickBest, hs, hcap]
          rw [hstep]
          obtain ⟨ihn, ihs⟩ := ih (some a)
          constructor
          · constructor
            · intro hnone
              exact absurd (ihn.mp hnone).1 (by simp)
            · rintro ⟨habs, -⟩
              cases habs
          · intro r hr
            obtain ⟨pre, post, hlist, hpre, hmax⟩ := ihs r hr
            simp only [Option.toList, List.cons_append, List.nil_append] at hlist
            have hba : b.capacity ≤ a.capacity := by omega
            cases pre with
            | nil =>
              simp only [List.nil_append] at hlist
              have har : a = r := (List.cons.inj hlist).1
              have hfr : rest.filter (fun b2 => !b2.shared) = post := (List.cons.inj hlist).2
              subst har
              refine ⟨[], b :: rest.filter (fun b2 => !b2.shared), by simp, by simp, ?_⟩
              intro x hx
              simp only [Option.toList, List.cons_append, List.nil_append] at hx
              rcases List.mem_cons.mp hx with hx | hx
              · subst hx
                exact le_refl _
              · rcases List.mem_cons.mp hx with hx | hx
                · subst hx
                  exact hba
                · refine hmax x ?_
                  simp only [Option.toList, List.cons_append, List.nil_append]
                  exact List.mem_cons_of_mem a hx
            | cons p pre2 =>
              simp only [List.cons_append] at hlist
              have hap : a = p := (List.cons.inj hlist).1
              have hfr : rest.filter (fun b2 => !b2.shared) = pre2 ++ r :: post :=
                (List.cons.inj hlist).2
              subst hap
              have halt : a.capacity < r.capacity := hpre a (by simp)
              refine ⟨a :: b :: pre2, post, ?_, ?_, ?_⟩
              · simp only [Option.toList, List.cons_append, List.nil_append, hfr]
              · intro x hx
                rcases List.mem_cons.mp hx with hx | hx
                · subst hx
                  exact halt
                · rcases List.mem_cons.mp hx with hx | hx
                  · subst hx
                    omega
                  · exact hpre x (List.mem_cons_of_mem a hx)
              · intro x hx
                simp only [Option.toList, List.cons_append, List.nil_append] at hx
                rcases List.mem_cons.mp hx with hx | hx
                · subst hx
                  exact le_of_lt halt
                · rcases List.mem_cons.mp hx with hx | hx
                  · subst hx
                    omega
                  · refine hmax x ?_
                    simp only [Option.toList, List.cons_append, List.nil_append]
                    exact List.mem_cons_of_mem a hx

/-! ### Queue-level bridge lemmas -/

theorem totalContent_of_nil_lease (q : IOBufQueue) (h : q.lease = []) :
    totalContent q = chainContent q.chain := by
  simp [totalContent, h]

theorem appendToString_eq_totalContent (q : IOBufQueue) (h3 : q.chain = [] → q.lease = []) :
    appendToString q = totalContent q := by
  unfold appendToString totalContent
  cases hc : q.chain with
  | nil => simp [hc, h3 hc, chainContent]
  | cons b l => simp [hc]

/-! ### Claim theorems -/

/-- Claim C1, counterexample: the claim says a strict `splitFront` that fails
with underflow leaves the queue unchanged.  On a queue holding the single
byte 42 (total length 1), `split 2 true` throws, and the queue state at the
throw is the empty queue, not the original one-byte queue. -/
theorem C1_counterexample_split_not_unchanged :
    split ⟨[⟨0, [42], 0, false⟩], 1, []⟩ 2 true = Except.error emptyQueue ∧
      emptyQueue ≠ (⟨[⟨0, [42], 0, false⟩], 1, []⟩ : IOBufQueue) := by
  constructor
  · rfl
  · intro h
    exact List.noConfusion (congrArg IOBufQueue.chain h)

/-- Claim C1, amended: a strict removal that fails with underflow
(`split(n, true)`, `trimStart(n)` or `trimEnd(n)` with `n` greater than the
total length) does mutate the queue: the best-effort removal runs to
completion before the throw, so the queue observed at the throw is the
empty queue (no nodes, length 0), with the partly collected bytes
discarded. -/
theorem C1_strict_underflow_empties (q : IOBufQueue) (n : Nat)
    (hcl : q.chainLength = sumLens q.chain) (hl : q.lease = [])
    (hn : totalLength q < n) :
    split q n true = Except.error emptyQueue ∧
    trimStart q n = Except.error emptyQueue ∧
    trimEnd q n = Except.error emptyQueue := by
  have hq : flushCache q = q := flushCache_of_nil q hl
  have hsum : sumLens q.chain < n := by
    rw [totalLength, hl] at hn
    simp at hn
    omega
  refine ⟨?_, ?_, ?_⟩
  · unfold split
    simp only [hq]
    rw [hcl, splitLoop_underflow q.chain [] (sumLens q.chain) n hsum]
    simp [emptyQueue]
  · unfold trimStart trimStartAtMost
    simp only [hq]
    rw [hcl]
    obtain ⟨h1, h2, h3, h4⟩ := trimStartLoop_spec q.chain n
    rw [h4 hsum] at h2
    rw [sumLens_nil] at h2
    rw [h3]
    have hne : n - (n - sumLens q.chain) ≠ n := by omega
    simp only [hne, ne_eq, not_false_eq_true, if_true, ite_true]
    rw [h4 hsum, h2]
    rfl
  · unfold trimEnd trimEndAtMost
    simp only [hq]
    rw [hcl, ← sumLens_reverse q.chain]
    have hsumr : sumLens q.chain.reverse < n := by rw [sumLens_reverse]; exact hsum
    rw [trimEndLoopRev_underflow q.chain.reverse n hsumr]
    have hne : n - (n - sumLens q.chain.reverse) ≠ n := by
      rw [sumLens_reverse]
      omega
    simp only [hne, ne_eq, not_false_eq_true, if_true, ite_true]
    rfl

/-- Claim C1 witness: the amended theorem applied at a one-byte queue and
`n = 5`. -/
theorem C1_strict_underflow_empties_witness :
    ((⟨[⟨0, [42], 0, false⟩], 1, []⟩ : IOBufQueue).chainLength =
        sumLens (⟨[⟨0, [42], 0, false⟩], 1, []⟩ : IOBufQueue).chain ∧
      (⟨[⟨0, [42], 0, false⟩], 1, []⟩ : IOBufQueue).lease = [] ∧
      totalLength ⟨[⟨0, [42], 0, false⟩], 1, []⟩ < 5) ∧
    (split ⟨[⟨0, [42], 0, false⟩], 1, []⟩ 5 true = Except.error emptyQueue ∧
      trimStart ⟨[⟨0, [42], 0, false⟩], 1, []⟩ 5 = Except.error emptyQueue ∧
      trimEnd ⟨[⟨0, [42], 0, false⟩], 1, []⟩ 5 = Except.error emptyQueue) :=
  ⟨⟨by decide, rfl, by decide⟩,
    C1_strict_underflow_empties ⟨[⟨0, [42], 0, false⟩], 1, []⟩ 5 (by decide) rfl (by decide)⟩

/-- Claim C7: `trimStartAtMost(amount)` never fails, removes exactly
`min(amount, totalLength)` bytes from the front (the remaining content is
the original content with `amount` bytes dropped) and returns that number;
the length cache stays correct. -/
theorem C7_trimStartAtMost (q : IOBufQueue) (amount : Nat)
    (hcl : q.chainLength = sumLens q.chain) (hl : q.lease = []) :
    (trimStartAtMost q amount).1 = min amount (totalLength q) ∧
    totalContent (trimStartAtMost q amount).2 = (totalContent q).drop amount ∧
    (trimStartAtMost q amount).2.chainLength = sumLens (trimStartAtMost q amount).2.chain := by
  have hq : flushCache q = q := flushCache_of_nil q hl
  obtain ⟨h1, h2, h3, h4⟩ := trimStartLoop_spec q.chain amount
  unfold trimStartAtMost
  simp only [hq]
  rw [hcl]
  refine ⟨?_, ?_, ?_⟩
  · rw [h3, totalLength, hl, hcl]
    simp only [List.length_nil, Nat.add_zero]
    omega
  · simp only [totalContent, hl, List.append_nil]
    exact h1
  · exact h2

/-- Claim C7 witness: trimming 7 bytes at most from a 3-byte queue removes
3 bytes and drops the whole content. -/
theorem C7_trimStartAtMost_witness :
    ((⟨[⟨0, [1, 2], 0, false⟩, ⟨0, [3], 4, false⟩], 3, []⟩ : IOBufQueue).chainLength =
        sumLens (⟨[⟨0, [1, 2], 0, false⟩, ⟨0, [3], 4, false⟩], 3, []⟩ : IOBufQueue).chain ∧
      (⟨[⟨0, [1, 2], 0, false⟩, ⟨0, [3], 4, false⟩], 3, []⟩ : IOBufQueue).lease = []) ∧
    ((trimStartAtMost ⟨[⟨0, [1, 2], 0, false⟩, ⟨0, [3], 4, false⟩], 3, []⟩ 7).1 =
        min 7 (totalLength ⟨[⟨0, [1, 2], 0, false⟩, ⟨0, [3], 4, false⟩], 3, []⟩) ∧
      totalContent (trimStartAtMost ⟨[⟨0, [1, 2], 0, false⟩, ⟨0, [3], 4, false⟩], 3, []⟩ 7).2 =
        (totalContent ⟨[⟨0, [1, 2], 0, false⟩, ⟨0, [3], 4, false⟩], 3, []⟩).drop 7 ∧
      (trimStartAtMost ⟨[⟨0, [1, 2], 0, false⟩, ⟨0, [3], 4, false⟩], 3, []⟩ 7).2.chainLength =
        sumLens (trimStartAtMost ⟨[⟨0, [1, 2], 0, false⟩, ⟨0, [3], 4, false⟩], 3, []⟩ 7).2.chain) :=
  ⟨⟨by decide, rfl⟩,
    C7_trimStartAtMost ⟨[⟨0, [1, 2], 0, false⟩, ⟨0, [3], 4, false⟩], 3, []⟩ 7 (by decide) rfl⟩

/-- Unfolding lemma: `splitLoop` at `n = 0` returns immediately. -/
theorem splitLoop_zero (res chain : List IOBufNode) (cl : Nat) (strict : Bool) :
    splitLoop res chain cl 0 strict = Except.ok (res, chain, cl) := by
  rw [splitLoop.eq_def]
  simp

/-- Unfolding lemma: `splitLoop` on an exhausted chain with bytes still
requested either throws (strict) or stops early. -/
theorem splitLoop_nil_of_ne (res : List IOBufNode) (cl n : Nat) (strict : Bool)
    (hn : n ≠ 0) :
    splitLoop res [] cl n strict =
      if strict then Except.error ([], cl) else Except.ok (res, [], cl) := by
  rw [splitLoop.eq_def]
  simp [hn]

/-- Claim C4: for `0 ≤ n ≤` total length, `split(n, true)` succeeds and
returns a chain holding exactly the first `n` bytes; the remaining queue
holds the rest, so re-concatenating prefix and remainder reproduces the
pre-split content; `split(0, _)` returns a freshly created empty buffer and
mutates nothing. -/
theorem C4_split_front_exact (q : IOBufQueue) (n : Nat)
    (hcl : q.chainLength = sumLens q.chain) (hl : q.lease = []) (hn : n ≤ totalLength q) :
    ∃ res q2, split q n true = Except.ok (res, q2) ∧
      chainContent res = (totalContent q).take n ∧
      totalContent q2 = (totalContent q).drop n ∧
      chainContent res ++ totalContent q2 = totalContent q ∧
      (n = 0 → res = [IOBufNode.create 0] ∧ q2 = q) := by
  have hq : flushCache q = q := flushCache_of_nil q hl
  have hsum : n ≤ sumLens q.chain := by
    rw [totalLength, hl] at hn
    simp at hn
    omega
  by_cases hn0 : n = 0
  · subst hn0
    refine ⟨[IOBufNode.create 0], ⟨q.chain, q.chainLength, []⟩, ?_, ?_, ?_, ?_, ?_⟩
    · unfold split
      simp only [hq]
      rw [splitLoop_zero]
      simp
    · simp [chainContent, IOBufNode.create]
    · rw [totalContent_of_nil_lease q hl]
      simp [totalContent]
    · rw [totalContent_of_nil_lease q hl]
      simp [totalContent, chainContent, IOBufNode.create]
    · intro _
      refine ⟨rfl, ?_⟩
      rw [← hl]
  · obtain ⟨t, chain2, heq, hct, hcd, hsl, hiff⟩ :=
      splitLoop_ok q.chain [] q.chainLength n true hsum
    have ht : t ≠ [] := fun h2 => hn0 (hiff.mp h2)
    refine ⟨t, ⟨chain2, q.chainLength - n, []⟩, ?_, ?_, ?_, ?_, fun h0 => absurd h0 hn0⟩
    · unfold split
      simp only [hq]
      rw [heq]
      simp [ht]
    · rw [hct, totalContent_of_nil_lease q hl]
    · rw [totalContent_of_nil_lease q hl]
      simp [totalContent, hcd]
    · rw [hct, totalContent_of_nil_lease q hl]
      simp [totalContent, hcd, List.take_append_drop]
  
/-- Claim C4 witness: splitting 2 bytes off a queue of 3 bytes spread over
two nodes. -/
theorem C4_split_front_exact_witness :
    ((⟨[⟨0, [1, 2], 0, false⟩, ⟨0, [3], 4, false⟩], 3, []⟩ : IOBufQueue).chainLength =
        sumLens (⟨[⟨0, [1, 2], 0, false⟩, ⟨0, [3], 4, false⟩], 3, []⟩ : IOBufQueue).chain ∧
      (⟨[⟨0, [1, 2], 0, false⟩, ⟨0, [3], 4, false⟩], 3, []⟩ : IOBufQueue).lease = [] ∧
      2 ≤ totalLength ⟨[⟨0, [1, 2], 0, false⟩, ⟨0, [3], 4, false⟩], 3, []⟩) ∧
    (∃ res q2,
      split ⟨[⟨0, [1, 2], 0, false⟩, ⟨0, [3], 4, false⟩], 3, []⟩ 2 true = Except.ok (res, q2) ∧
      chainContent res =
        (totalContent ⟨[⟨0, [1, 2], 0, false⟩, ⟨0, [3], 4, false⟩], 3, []⟩).take 2 ∧
      totalContent q2 =
        (totalContent ⟨[⟨0, [1, 2], 0, false⟩, ⟨0, [3], 4, false⟩], 3, []⟩).drop 2 ∧
      chainContent res ++ totalContent q2 =
        totalContent ⟨[⟨0, [1, 2], 0, false⟩, ⟨0, [3], 4, false⟩], 3, []⟩ ∧
      (2 = 0 → res = [IOBufNode.create 0] ∧
        q2 = ⟨[⟨0, [1, 2], 0, false⟩, ⟨0, [3], 4, false⟩], 3, []⟩)) :=
  ⟨⟨by decide, rfl, by decide⟩,
    C4_split_front_exact ⟨[⟨0, [1, 2], 0, false⟩, ⟨0, [3], 4, false⟩], 3, []⟩ 2
      (by decide) rfl (by decide)⟩

/-- Claim C10: whenever `split` completes without failing, the returned
chain is never empty; in particular with `n = 0`, or with an empty queue
(which in strict mode can only succeed at `n = 0`, and in non-strict mode
collects nothing), it is the freshly created empty buffer `create 0`. -/
theorem C10_split_result_not_null (q : IOBufQueue) (n : Nat) (strict : Bool)
    (hl : q.lease = []) (res : List IOBufNode) (q2 : IOBufQueue)
    (hok : split q n strict = Except.ok (res, q2)) :
    res ≠ [] ∧ (n = 0 → res = [IOBufNode.create 0]) ∧
    (q.chain = [] → res = [IOBufNode.create 0]) := by
  have hq : flushCache q = q := flushCache_of_nil q hl
  unfold split at hok
  simp only [hq] at hok
  cases hsp : splitLoop [] q.chain q.chainLength n strict with
  | error e =>
    rw [hsp] at hok
    exact absurd hok (by simp)
  | ok r =>
    obtain ⟨r1, rc, rcl⟩ := r
    rw [hsp] at hok
    simp only [Except.ok.injEq, Prod.mk.injEq] at hok
    obtain ⟨hres, hq2⟩ := hok
    refine ⟨?_, ?_, ?_⟩
    · rw [← hres]
      by_cases hr : r1 = []
      · simp [hr]
      · simp only [hr, if_false, ite_false]
        exact hr
    · intro h0
      subst h0
      rw [splitLoop_zero] at hsp
      simp only [Except.ok.injEq, Prod.mk.injEq] at hsp
      rw [← hres, ← hsp.1]
      simp
    · intro hc
      rw [hc] at hsp
      by_cases h0 : n = 0
      · subst h0
        rw [splitLoop_zero] at hsp
        simp only [Except.ok.injEq, Prod.mk.injEq] at hsp
        rw [← hres, ← hsp.1]
        simp
      · rw [splitLoop_nil_of_ne [] q.chainLength n strict h0] at hsp
        cases strict with
        | true => exact absurd hsp (by simp)
        | false =>
          simp only [Bool.false_eq_true, if_false, ite_false, Except.ok.injEq,
            Prod.mk.injEq] at hsp
          obtain ⟨h1, -, -⟩ := hsp
          subst h1
          rw [← hres]
          simp

/-- Claim C10 witness: a non-strict split of 4 bytes from an empty queue
succeeds and returns the freshly created empty buffer. -/
theorem C10_split_result_not_null_witness :
    (emptyQueue.lease = [] ∧
      split emptyQueue 4 false = Except.ok ([IOBufNode.create 0], emptyQueue)) ∧
    ([IOBufNode.create 0] ≠ ([] : List IOBufNode) ∧
      (4 = 0 → [IOBufNode.create 0] = [IOBufNode.create 0]) ∧
      (emptyQueue.chain = [] → [IOBufNode.create 0] = [IOBufNode.create 0])) :=
  ⟨⟨rfl, rfl⟩,
    C10_split_result_not_null emptyQueue 4 false rfl [IOBufNode.create 0] emptyQueue rfl⟩

/-- Claim C2: on a non-empty chain, `prepend` fails with the capacity error
exactly when `n` exceeds the head's headroom, and otherwise copies the `n`
bytes into the headroom, extends the head backward and adds `n` to the
total length.  However, on an empty chain the C++ reads `head_->headroom()`
before testing `!head_`, a null dereference — not the capacity error the
spec promises; the first conjunct evaluates the model at that failing
input. -/
theorem C2_prepend_behavior :
    prepend emptyQueue [7] = Except.error QueueError.nullDeref ∧
    (∀ (q : IOBufQueue) (bs : List Nat) (hd : IOBufNode) (rest : List IOBufNode),
      q.chain = hd :: rest →
      (hd.headroom < bs.length → prepend q bs = Except.error QueueError.overflowErr) ∧
      (bs.length ≤ hd.headroom →
        prepend q bs =
          Except.ok ⟨hd.prependBytes bs :: rest, q.chainLength + bs.length, q.lease⟩ ∧
        totalContent ⟨hd.prependBytes bs :: rest, q.chainLength + bs.length, q.lease⟩ =
          bs ++ totalContent q ∧
        totalLength ⟨hd.prependBytes bs :: rest, q.chainLength + bs.length, q.lease⟩ =
          totalLength q + bs.length)) := by
  constructor
  · rfl
  · intro q bs hd rest hc
    constructor
    · intro hlt
      unfold prepend
      simp only [hc]
      simp [hlt]
    · intro hle
      have hnlt : ¬(hd.headroom < bs.length) := by omega
      refine ⟨?_, ?_, ?_⟩
      · unfold prepend
        simp only [hc]
        simp [hnlt]
      · simp only [totalContent, hc, chainContent_cons, IOBufNode.prependBytes]
        simp [List.append_assoc]
      · simp only [totalLength]
        omega

/-- Claim C2 witness: prepending one byte into a head with two bytes of
headroom succeeds and grows the length by one. -/
theorem C2_prepend_behavior_witness :
    ((⟨[⟨2, [5], 0, false⟩], 1, []⟩ : IOBufQueue).chain = ⟨2, [5], 0, false⟩ :: [] ∧
      ([9] : List Nat).length ≤ (⟨2, [5], 0, false⟩ : IOBufNode).headroom) ∧
    prepend ⟨[⟨2, [5], 0, false⟩], 1, []⟩ [9] =
      Except.ok ⟨(⟨2, [5], 0, false⟩ : IOBufNode).prependBytes [9] :: [], 1 + 1, []⟩ :=
  ⟨⟨rfl, by decide⟩,
    ((C2_prepend_behavior.2 ⟨[⟨2, [5], 0, false⟩], 1, []⟩ [9] ⟨2, [5], 0, false⟩ []
      rfl).2 (by decide)).1⟩

/-- Claim C5: for one packing append, a shared tail packs nothing; otherwise
the bytes copied are at most `kMaxPackCopy`, the consumed nodes are exactly
a prefix of the incoming run copied byte-for-byte into the tail, packing
stops exactly when the leading unconsumed node exceeds the remaining budget
or the tail's remaining tailroom, and `appendToChain` splices the
unconsumed nodes after the tail unchanged. -/
theorem C5_packInto_budget (tail : IOBufNode) (src : List IOBufNode)
    (t : IOBufNode) (rem : List IOBufNode) (c : Nat)
    (hp : packInto tail src = (t, rem, c)) :
    (tail.shared = true → t = tail ∧ rem = src ∧ c = 0) ∧
    c ≤ kMaxPackCopy ∧
    (∃ pre, src = pre ++ rem ∧ c = sumLens pre ∧
      t = tail.appendBytes (chainContent pre)) ∧
    (tail.shared = false → ∀ b2 rest2, rem = b2 :: rest2 →
      ¬(b2.length ≤ kMaxPackCopy - c ∧ b2.length ≤ t.tailroom)) ∧
    (∀ ds : List IOBufNode, appendToChain (ds ++ [tail]) src true = ds ++ t :: rem) := by
  have hsplice : ∀ ds : List IOBufNode,
      appendToChain (ds ++ [tail]) src true = ds ++ t :: rem := by
    intro ds
    rw [appendToChain_last_pack ds tail src, hp]
  by_cases hs : tail.shared
  · unfold packInto at hp
    rw [if_pos hs] at hp
    simp only [Prod.mk.injEq] at hp
    obtain ⟨ht, hr, hc⟩ := hp
    subst ht
    subst hr
    subst hc
    refine ⟨fun _ => ⟨rfl, rfl, rfl⟩, Nat.zero_le _, ⟨[], by simp, rfl, ?_⟩, ?_, hsplice⟩
    · rw [chainContent_nil, IOBufNode.appendBytes_nil]
    · intro hfalse
      rw [hs] at hfalse
      cases hfalse
  · unfold packInto at hp
    rw [if_neg hs] at hp
    obtain ⟨hb, ⟨pre, hpre, hc, ht⟩, hstop⟩ := packLoop_spec src tail kMaxPackCopy
    rw [hp] at hb hpre hc ht hstop
    simp only at hb hpre hc ht hstop
    refine ⟨fun hcon => absurd hcon hs, hb, ⟨pre, hpre, hc, ht⟩, ?_, hsplice⟩
    intro _ b2 rest2 hrem
    exact hstop b2 rest2 hrem

/-- Claim C5 witness: packing a 2-byte node into a tail with 10 bytes of
tailroom copies it; the following 20-byte node exceeds the remaining
tailroom and is spliced by reference. -/
theorem C5_packInto_budget_witness :
    (packInto ⟨0, [], 10, false⟩
        [⟨0, [1, 2], 0, false⟩, ⟨0, List.replicate 20 3, 0, false⟩] =
      (⟨0, [1, 2], 8, false⟩, [⟨0, List.replicate 20 3, 0, false⟩], 2)) ∧
    (2 ≤ kMaxPackCopy ∧
      (∃ pre, [⟨0, [1, 2], 0, false⟩, (⟨0, List.replicate 20 3, 0, false⟩ : IOBufNode)] =
          pre ++ [⟨0, List.replicate 20 3, 0, false⟩] ∧ 2 = sumLens pre ∧
        (⟨0, [1, 2], 8, false⟩ : IOBufNode) =
          IOBufNode.appendBytes ⟨0, [], 10, false⟩ (chainContent pre))) :=
  ⟨by decide,
    (C5_packInto_budget ⟨0, [], 10, false⟩
      [⟨0, [1, 2], 0, false⟩, ⟨0, List.replicate 20 3, 0, false⟩]
      ⟨0, [1, 2], 8, false⟩ [⟨0, List.replicate 20 3, 0, false⟩] 2 (by decide)).2.1,
    ((C5_packInto_budget ⟨0, [], 10, false⟩
      [⟨0, [1, 2], 0, false⟩, ⟨0, List.replicate 20 3, 0, false⟩]
      ⟨0, [1, 2], 8, false⟩ [⟨0, List.replicate 20 3, 0, false⟩] 2 (by decide)).2.2).1⟩

/-- Claim C6: appending queue B into queue A moves every byte of B into A —
A's cached and true length grow by B's length and its content becomes A's
followed by B's — while B ends as the empty queue (no chain, length 0). -/
theorem C6_appendQueue_moves_all (a b : IOBufQueue) (pack : Bool)
    (ha : a.chainLength = sumLens a.chain) (hb : b.chainLength = sumLens b.chain)
    (hal : a.lease = []) (hbl : b.lease = []) :
    (appendQueue a b pack).1.chainLength = a.chainLength + b.chainLength ∧
    totalContent (appendQueue a b pack).1 = totalContent a ++ totalContent b ∧
    (appendQueue a b pack).1.chainLength = sumLens (appendQueue a b pack).1.chain ∧
    (appendQueue a b pack).2 = emptyQueue := by
  have hqa : flushCache a = a := flushCache_of_nil a hal
  have hqb : flushCache b = b := flushCache_of_nil b hbl
  by_cases hbe : b.chain = []
  · have hb0 : b.chainLength = 0 := by rw [hb, hbe]; rfl
    have hbq : b = emptyQueue := by
      obtain ⟨bc, bcl, ble⟩ := b
      simp only at hbe hb0 hbl
      subst hbe
      subst hb0
      subst hbl
      rfl
    unfold appendQueue
    rw [if_pos hbe]
    refine ⟨by simp [hb0], ?_, ha, hbq⟩
    rw [hbq]
    simp [totalContent, emptyQueue, chainContent]
  · unfold appendQueue
    rw [if_neg hbe]
    simp only [hqa, hqb]
    refine ⟨by simp, ?_, ?_, by simp [emptyQueue]⟩
    · simp only [totalContent, hal, hbl, List.append_nil]
      exact appendToChain_content a.chain b.chain pack
    · show a.chainLength + b.chainLength = sumLens (appendToChain a.chain b.chain pack)
      rw [← chainContent_length, appendToChain_content, List.length_append,
        chainContent_length, chainContent_length, ha, hb]

/-- Claim C6 witness: appending a one-node queue into another with packing
enabled. -/
theorem C6_appendQueue_moves_all_witness :
    ((⟨[⟨0, [1], 2, false⟩], 1, []⟩ : IOBufQueue).chainLength =
        sumLens (⟨[⟨0, [1], 2, false⟩], 1, []⟩ : IOBufQueue).chain ∧
      (⟨[⟨0, [2, 3], 0, false⟩], 2, []⟩ : IOBufQueue).chainLength =
        sumLens (⟨[⟨0, [2, 3], 0, false⟩], 2, []⟩ : IOBufQueue).chain) ∧
    ((appendQueue ⟨[⟨0, [1], 2, false⟩], 1, []⟩ ⟨[⟨0, [2, 3], 0, false⟩], 2, []⟩ true).1.chainLength =
        1 + 2 ∧
      totalContent (appendQueue ⟨[⟨0, [1], 2, false⟩], 1, []⟩
          ⟨[⟨0, [2, 3], 0, false⟩], 2, []⟩ true).1 = [1, 2, 3] ∧
      (appendQueue ⟨[⟨0, [1], 2, false⟩], 1, []⟩ ⟨[⟨0, [2, 3], 0, false⟩], 2, []⟩ true).2 =
        emptyQueue) := by
  have h := C6_appendQueue_moves_all ⟨[⟨0, [1], 2, false⟩], 1, []⟩
    ⟨[⟨0, [2, 3], 0, false⟩], 2, []⟩ true (by decide) (by decide) rfl rfl
  exact ⟨⟨by decide, by decide⟩, h.1, by rw [h.2.1]; decide, h.2.2.2⟩

/-- Claim C8: `append(buf, len)` places all bytes — the content grows by
exactly the appended bytes and the cached length by `len`, staying correct —
reusing the existing tail's tailroom first (the original chain survives with
only its tail extended) while every newly allocated node has capacity
`max(MIN_ALLOC_SIZE, min(remaining, MAX_ALLOC_SIZE))`, which always lies in
`[MIN_ALLOC_SIZE, MAX_ALLOC_SIZE]` and equals the spec's
`clamp(remaining, MIN_ALLOC, MAX_ALLOC)`. -/
theorem C8_appendRaw_places_all (q : IOBufQueue) (bs : List Nat)
    (hcl : q.chainLength = sumLens q.chain) (hl : q.lease = []) :
    totalContent (appendRaw q bs) = totalContent q ++ bs ∧
    (appendRaw q bs).chainLength = q.chainLength + bs.length ∧
    (appendRaw q bs).chainLength = sumLens (appendRaw q bs).chain ∧
    (∃ ys ext, ys.length ≤ lastTailroom q.chain ∧
      (appendRaw q bs).chain = modifyLast (fun t => t.appendBytes ys) q.chain ++ ext ∧
      ∀ b2 ∈ ext, MIN_ALLOC_SIZE ≤ b2.capacity ∧ b2.capacity ≤ MAX_ALLOC_SIZE) ∧
    (∀ r, max MIN_ALLOC_SIZE (min r MAX_ALLOC_SIZE) =
      min (max r MIN_ALLOC_SIZE) MAX_ALLOC_SIZE) := by
  have hq : flushCache q = q := flushCache_of_nil q hl
  obtain ⟨h1, h2, hex⟩ := appendLoop_spec q.chain bs
  unfold appendRaw
  simp only [hq]
  refine ⟨?_, ?_, ?_, hex, ?_⟩
  · simp only [totalContent, hl, List.append_nil]
    exact h1
  · rw [h2]
  · rw [h2, ← chainContent_length, h1, List.length_append, chainContent_length, hcl]
  · intro r
    unfold MIN_ALLOC_SIZE MAX_ALLOC_SIZE
    omega

/-- Claim C8 witness: appending three raw bytes to a queue whose unshared
tail has room for one of them. -/
theorem C8_appendRaw_places_all_witness :
    ((⟨[⟨0, [7], 1, false⟩], 1, []⟩ : IOBufQueue).chainLength =
        sumLens (⟨[⟨0, [7], 1, false⟩], 1, []⟩ : IOBufQueue).chain) ∧
    (totalContent (appendRaw ⟨[⟨0, [7], 1, false⟩], 1, []⟩ [8, 9, 10]) =
        [7, 8, 9, 10] ∧
      (appendRaw ⟨[⟨0, [7], 1, false⟩], 1, []⟩ [8, 9, 10]).chainLength = 1 + 3) := by
  have h := C8_appendRaw_places_all ⟨[⟨0, [7], 1, false⟩], 1, []⟩ [8, 9, 10]
    (by decide) rfl
  exact ⟨by decide, by rw [h.1]; decide, h.2.1⟩

/-- Claim C9: after `clearAndTryReuseLargestBuffer` the length is 0 and the
queue holds either no node (when no unshared node existed, in particular
when the queue was empty) or exactly one node — the first-seen unshared node
of maximal capacity, cleared to length 0 with its capacity unchanged. -/
theorem C9_clearAndTryReuseLargest (q : IOBufQueue) (hl : q.lease = []) :
    (clearAndTryReuseLargestBuffer q).chainLength = 0 ∧
    (clearAndTryReuseLargestBuffer q).lease = [] ∧
    (q.chain.filter (fun b2 => !b2.shared) = [] →
      (clearAndTryReuseLargestBuffer q).chain = []) ∧
    (q.chain.filter (fun b2 => !b2.shared) ≠ [] →
      ∃ best pre post,
        q.chain.filter (fun b2 => !b2.shared) = pre ++ best :: post ∧
        (∀ x ∈ pre, x.capacity < best.capacity) ∧
        (∀ x ∈ q.chain.filter (fun b2 => !b2.shared), x.capacity ≤ best.capacity) ∧
        (clearAndTryReuseLargestBuffer q).chain = [best.clearNode] ∧
        best.clearNode.length = 0 ∧
        best.clearNode.capacity = best.capacity) := by
  have hq : flushCache q = q := flushCache_of_nil q hl
  obtain ⟨hnone, hsome⟩ := pickBest_spec q.chain none
  unfold clearAndTryReuseLargestBuffer
  simp only [hq]
  cases hp : pickBest none q.chain with
  | none =>
    refine ⟨rfl, rfl, fun _ => rfl, fun hne => ?_⟩
    exact absurd (hnone.mp hp).2 hne
  | some best =>
    obtain ⟨pre, post, hlist, hpre, hmax⟩ := hsome best hp
    simp only [Option.toList, List.nil_append] at hlist hmax
    refine ⟨rfl, rfl, fun hfil => ?_, fun _ => ⟨best, pre, post, hlist, hpre, hmax, rfl, rfl, ?_⟩⟩
    · rw [hfil] at hlist
      exact absurd hlist.symm (List.cons_ne_nil best post ∘ (List.append_eq_nil.mp · |>.2))
    · simp [IOBufNode.clearNode, IOBufNode.capacity]

/-- Claim C9 witness: a three-node chain with a shared large node; the
larger of the two unshared nodes is kept, cleared. -/
theorem C9_clearAndTryReuseLargest_witness :
    ((⟨[⟨0, [1], 2, false⟩, ⟨0, [2, 3], 9, true⟩, ⟨1, [4], 5, false⟩], 4, []⟩ : IOBufQueue).lease
        = []) ∧
    ((clearAndTryReuseLargestBuffer
        ⟨[⟨0, [1], 2, false⟩, ⟨0, [2, 3], 9, true⟩, ⟨1, [4], 5, false⟩], 4, []⟩).chainLength = 0 ∧
      (clearAndTryReuseLargestBuffer
        ⟨[⟨0, [1], 2, false⟩, ⟨0, [2, 3], 9, true⟩, ⟨1, [4], 5, false⟩], 4, []⟩).chain =
        [⟨0, [], 7, false⟩]) := by
  have h := C9_clearAndTryReuseLargest
    ⟨[⟨0, [1], 2, false⟩, ⟨0, [2, 3], 9, true⟩, ⟨1, [4], 5, false⟩], 4, []⟩ rfl
  refine ⟨rfl, h.1, ?_⟩
  obtain ⟨best, pre, post, hlist, hpre, hmax, hchain, hlen, hcap⟩ := h.2.2.2 (by decide)
  have hbest : best = ⟨1, [4], 5, false⟩ := by
    have hmem : best ∈ [(⟨0, [1], 2, false⟩ : IOBufNode), ⟨1, [4], 5, false⟩] := by
      have : best ∈ pre ++ best :: post := by simp
      rw [← hlist] at this
      simpa using this
    have h5 : (⟨0, [1], 2, false⟩ : IOBufNode).capacity ≤ best.capacity := by
      apply hmax
      decide
    have h7 : (⟨1, [4], 5, false⟩ : IOBufNode).capacity ≤ best.capacity := by
      apply hmax
      decide
    rcases List.mem_cons.mp hmem with hb | hb
    · exfalso
      rw [hb] at h7
      revert h7
      decide
    · simpa using hb
  rw [hchain, hbest]
  rfl

/-- Preservation lemma: one append (raw bytes or a lease round-trip) keeps
the queue well-formed, appends exactly its bytes to the content, and grows
the total length by their number. -/
theorem applyAppend_spec (q : IOBufQueue) (op : AppendSource) (hq : q.wf) :
    (applyAppend q op).wf ∧
    totalContent (applyAppend q op) = totalContent q ++ op.bytes ∧
    totalLength (applyAppend q op) = totalLength q + op.bytes.length := by
  obtain ⟨hw1, hw2, hw3⟩ := hq
  cases op with
  | raw bs =>
    obtain ⟨h1, h2, -⟩ := appendLoop_spec (flushCache q).chain bs
    have hfc : totalContent (flushCache q) = totalContent q := flushCache_content q hw3
    have hfl : (flushCache q).chainLength = totalLength q := flushCache_chainLength q
    have hfs : (flushCache q).chainLength = sumLens (flushCache q).chain :=
      flushCache_sumLens q hw1 hw3
    have hfe : (flushCache q).lease = [] := flushCache_lease q
    simp only [applyAppend, AppendSource.bytes]
    unfold appendRaw
    refine ⟨⟨?_, Nat.zero_le _, fun _ => rfl⟩, ?_, ?_⟩
    · show (flushCache q).chainLength + (appendLoop (flushCache q).chain bs).2 =
        sumLens (appendLoop (flushCache q).chain bs).1
      rw [h2, ← chainContent_length, h1, List.length_append, chainContent_length, hfs]
    · show chainContent (appendLoop (flushCache q).chain bs).1 ++ [] =
        totalContent q ++ bs
      rw [List.append_nil, h1, ← hfc, totalContent_of_nil_lease (flushCache q) hfe]
    · show (flushCache q).chainLength + (appendLoop (flushCache q).chain bs).2 +
        ([] : List Nat).length = totalLength q + bs.length
      rw [h2, hfl]
      simp
  | viaLease bs =>
    simp only [applyAppend, AppendSource.bytes]
    unfold preallocateWrite
    by_cases hfast : q.chain ≠ [] ∧ bs.length ≤ lastTailroom q.chain - q.lease.length
    · rw [if_pos hfast]
      refine ⟨⟨hw1, ?_, fun hc => absurd hc hfast.1⟩, ?_, ?_⟩
      · show (q.lease ++ bs).length ≤ lastTailroom q.chain
        rw [List.length_append]
        omega
      · show chainContent q.chain ++ (q.lease ++ bs) = totalContent q ++ bs
        rw [totalContent, List.append_assoc]
      · show q.chainLength + (q.lease ++ bs).length = totalLength q + bs.length
        rw [List.length_append, totalLength]
        omega
    · rw [if_neg hfast]
      have hfc : totalContent (flushCache q) = totalContent q := flushCache_content q hw3
      have hfl : (flushCache q).chainLength = totalLength q := flushCache_chainLength q
      have hfs : (flushCache q).chainLength = sumLens (flushCache q).chain :=
        flushCache_sumLens q hw1 hw3
      have hfe : (flushCache q).lease = [] := flushCache_lease q
      have hch : appendToChain (flushCache q).chain
          [IOBufNode.create (max bs.length bs.length)] false =
          (flushCache q).chain ++ [IOBufNode.create bs.length] := by
        rw [appendToChain_false, Nat.max_self]
      unfold preallocateSlow
      simp only [hch]
      refine ⟨⟨?_, ?_, fun hc => absurd hc (by simp)⟩, ?_, ?_⟩
      · show (flushCache q).chainLength =
          sumLens ((flushCache q).chain ++ [IOBufNode.create bs.length])
        rw [sumLens_append, hfs]
        simp [sumLens, IOBufNode.create, IOBufNode.length]
      · show bs.length ≤
          lastTailroom ((flushCache q).chain ++ [IOBufNode.create bs.length])
        rw [lastTailroom_concat]
        exact Nat.le_refl _
      · show chainContent ((flushCache q).chain ++ [IOBufNode.create bs.length]) ++ bs =
          totalContent q ++ bs
        rw [chainContent_append, ← hfc, totalContent_of_nil_lease (flushCache q) hfe]
        simp [chainContent, IOBufNode.create]
      · show (flushCache q).chainLength + bs.length = totalLength q + bs.length
        rw [hfl]

/-- Claim C3: serializing a queue built by any sequence of appends — raw
byte appends and write-range-cache (lease) round-trips, whose bytes are
read without requiring a commit — yields exactly the concatenation of the
appended byte sequences, and the total length equals the sum of their
lengths. -/
theorem C3_serialize_concat (ops : List AppendSource) :
    appendToString (runAppends ops) = (ops.map AppendSource.bytes).flatten ∧
    totalLength (runAppends ops) = ((ops.map AppendSource.bytes).map List.length).sum := by
  have hfold : ∀ (ops2 : List AppendSource) (q : IOBufQueue), q.wf →
      (ops2.foldl applyAppend q).wf ∧
      totalContent (ops2.foldl applyAppend q) =
        totalContent q ++ (ops2.map AppendSource.bytes).flatten ∧
      totalLength (ops2.foldl applyAppend q) =
        totalLength q + ((ops2.map AppendSource.bytes).map List.length).sum := by
    intro ops2
    induction ops2 with
    | nil =>
      intro q hq
      exact ⟨hq, by simp, by simp⟩
    | cons op rest ih =>
      intro q hq
      obtain ⟨hw1, hc1, hl1⟩ := applyAppend_spec q op hq
      obtain ⟨hw2, hc2, hl2⟩ := ih (applyAppend q op) hw1
      simp only [List.foldl_cons]
      refine ⟨hw2, ?_, ?_⟩
      · rw [hc2, hc1]
        simp
      · rw [hl2, hl1]
        simp [Nat.add_assoc]
  have hewf : emptyQueue.wf := ⟨rfl, Nat.le_refl _, fun _ => rfl⟩
  unfold runAppends
  obtain ⟨hwf, hc, hlen⟩ := hfold ops emptyQueue hewf
  constructor
  · rw [appendToString_eq_totalContent _ hwf.2.2, hc]
    simp [totalContent, emptyQueue, chainContent]
  · rw [hlen]
    simp [totalLength, emptyQueue]
